import Mathlib

/-!
Shallow embedding of the five routines of `src/misc.cpp` (Armadillo / C++),
over real numbers: an `arma::vec` of length `n` becomes `Fin n → ℝ`, an
`arma::mat` of shape `m × n` becomes `Matrix (Fin m) (Fin n) ℝ`.  In-place
mutation is rendered as returning the new contents of the container.
-/

noncomputable section

namespace Misc

open Matrix

/-- The function `scale_rows(A, b)`: the C++ body is `vec c = b; A.each_col() %= c;`,
which multiplies entry `A(i,j)` by `b(i)` for every row `i` and column `j`. -/
def scale_rows {m n : ℕ} (A : Matrix (Fin m) (Fin n) ℝ) (b : Fin m → ℝ) :
    Matrix (Fin m) (Fin n) ℝ :=
  Matrix.of fun i j => A i j * b i

/-- The Armadillo `max(x)` on a nonempty vector: the largest entry. -/
def vecMax {n : ℕ} (x : Fin (n + 1) → ℝ) : ℝ :=
  Finset.univ.sup' Finset.univ_nonempty x

/-- The function `softmax(x)`: the C++ body is `rowvec y = exp(x - max(x)); y /= sum(y);
return y;`. -/
def softmax {n : ℕ} (x : Fin (n + 1) → ℝ) : Fin (n + 1) → ℝ :=
  fun i => Real.exp (x i - vecMax x) / ∑ j, Real.exp (x j - vecMax x)

/-- The function `safenormalize(x)`: the C++ body is
`unsigned int n = x.n_elem; if (sum(x) <= 0) x.fill(1/n); else x = x/sum(x);`.
Note that `1/n` is unsigned-integer division (`1` divided by the
`unsigned int n`), modelled here by natural-number division `1 / n : ℕ`
cast to `ℝ`; it equals `0` whenever `n ≥ 2`. -/
def safenormalize {n : ℕ} (x : Fin n → ℝ) : Fin n → ℝ :=
  if (∑ i, x i) ≤ 0 then fun _ => ((1 / n : ℕ) : ℝ)
  else fun i => x i / ∑ j, x j

/-- The function `crossprod(X)`: the C++ body is `return trans(X) * X;`. -/
def crossprod {m n : ℕ} (X : Matrix (Fin m) (Fin n) ℝ) :
    Matrix (Fin n) (Fin n) ℝ :=
  Xᵀ * X

/-- The Armadillo `solve(L, x)`: the solution of the linear system
`L * z = x`, i.e. `L⁻¹ x` for invertible `L` (a general dense
solver, not restricted to triangular `L`). -/
def solve {n : ℕ} (L : Matrix (Fin n) (Fin n) ℝ) (x : Fin n → ℝ) :
    Fin n → ℝ :=
  L⁻¹ *ᵥ x

/-- The Euclidean (2-)norm `norm(z, 2)` of Armadillo. -/
def norm2 {n : ℕ} (z : Fin n → ℝ) : ℝ :=
  Real.sqrt (∑ i, z i ^ 2)

/-- The function `ldmvnorm(x, L)`: the C++ body is
`double d = norm(solve(L,x),2); return -d*d/2 - sum(log(sqrt(2*M_PI)*L.diag()));`. -/
def ldmvnorm {n : ℕ} (x : Fin n → ℝ) (L : Matrix (Fin n) (Fin n) ℝ) : ℝ :=
  -(norm2 (solve L x)) * norm2 (solve L x) / 2
    - ∑ i, Real.log (Real.sqrt (2 * Real.pi) * L i i)

/-- Since the argument of the square root is a sum of squares,
`d * d` collapses to that sum: `ldmvnorm` equals
`-(Σᵢ (L⁻¹x)ᵢ²)/2 - Σᵢ log(√(2π)·Lᵢᵢ)` for every `x` and `L`. -/
lemma ldmvnorm_eq {n : ℕ} (x : Fin n → ℝ) (L : Matrix (Fin n) (Fin n) ℝ) :
    ldmvnorm x L =
      -(∑ i, (solve L x) i ^ 2) / 2
        - ∑ i, Real.log (Real.sqrt (2 * Real.pi) * L i i) := by
  have h0 : (0 : ℝ) ≤ ∑ i, (solve L x) i ^ 2 :=
    Finset.sum_nonneg fun i _ => sq_nonneg _
  unfold ldmvnorm norm2
  rw [neg_mul, Real.mul_self_sqrt h0]

end Misc

end

namespace Misc

open Matrix

/-- C1 (code_bug): the claim says `safenormalize([0,0,0,0])` sets every
entry to `1/4 = 0.25`.  The code computes `1/n` with `n` an `unsigned int`,
an integer division that yields `0` for `n = 4`, so the vector is filled
with `0`, not `0.25`. -/
theorem C1_safenormalize_fill_is_zero :
    safenormalize ![(0 : ℝ), 0, 0, 0] = (fun _ => (0 : ℝ)) ∧
      (0.25 : ℝ) ≠ 0 := by
  constructor
  · unfold safenormalize
    rw [if_pos]
    · norm_num
    · simp [Fin.sum_univ_four]
  · norm_num

/-- C2 (confirmed): for a nonnegative vector with positive sum,
`safenormalize` divides each entry by the sum, and the results sum to `1`. -/
theorem C2_safenormalize_normalizes {n : ℕ} (x : Fin n → ℝ)
    (hnn : ∀ i, 0 ≤ x i) (hpos : 0 < ∑ i, x i) :
    (∀ i, safenormalize x i = x i / ∑ j, x j) ∧
      (∑ i, safenormalize x i) = 1 := by
  have hne : (∑ i, x i) ≠ 0 := ne_of_gt hpos
  have hbranch : safenormalize x = fun i => x i / ∑ j, x j := by
    unfold safenormalize
    rw [if_neg (not_le.mpr hpos)]
  refine ⟨fun i => by rw [hbranch], ?_⟩
  rw [hbranch, ← Finset.sum_div, div_self hne]

/-- Witness for **C2**: `safenormalize([1,2,3,4]) = [0.1, 0.2, 0.3, 0.4]`. -/
theorem C2_safenormalize_witness :
    safenormalize ![(1 : ℝ), 2, 3, 4] = ![0.1, 0.2, 0.3, 0.4] := by
  have hnn : ∀ i, 0 ≤ (![(1 : ℝ), 2, 3, 4]) i := by
    intro i
    fin_cases i <;> norm_num
  have hpos : 0 < ∑ i, (![(1 : ℝ), 2, 3, 4]) i := by
    simp [Fin.sum_univ_four]
    norm_num
  have h := (C2_safenormalize_normalizes ![(1 : ℝ), 2, 3, 4] hnn hpos).1
  funext i
  rw [h i]
  fin_cases i <;> simp [Fin.sum_univ_four] <;> norm_num

/-- C9 (confirmed): whenever the entries sum to a value `≤ 0` — even if
some entries are nonzero — `safenormalize` takes the fill branch (every
entry becomes the constant `(1/n : ℕ)` cast to `ℝ`) and never performs the
division by the sum. -/
theorem C9_safenormalize_fill_branch {n : ℕ} (x : Fin n → ℝ)
    (hsum : (∑ i, x i) ≤ 0) :
    safenormalize x = fun _ => ((1 / n : ℕ) : ℝ) := by
  unfold safenormalize
  rw [if_pos hsum]

/-- Witness for **C9**: `x = [1, -1]` has nonzero entries but sum `0 ≤ 0`,
and `safenormalize` fills it with the constant `(1/2 : ℕ) = 0`. -/
theorem C9_safenormalize_witness :
    (∑ i, (![(1 : ℝ), -1]) i) ≤ 0 ∧
      safenormalize ![(1 : ℝ), -1] = fun _ => ((1 / 2 : ℕ) : ℝ) := by
  have hsum : (∑ i, (![(1 : ℝ), -1]) i) ≤ 0 := by
    simp [Fin.sum_univ_two]
  exact ⟨hsum, C9_safenormalize_fill_branch ![(1 : ℝ), -1] hsum⟩

/-- The sum of exponentials of the entries of a nonempty vector is
strictly positive. -/
lemma sum_exp_pos {n : ℕ} (f : Fin (n + 1) → ℝ) :
    0 < ∑ j, Real.exp (f j) :=
  Finset.sum_pos (fun j _ => Real.exp_pos (f j)) Finset.univ_nonempty

/-- Cancelling the common factor `exp (vecMax x)` shows that the stabilised
softmax agrees with the textbook one. -/
lemma softmax_apply {n : ℕ} (x : Fin (n + 1) → ℝ) (i : Fin (n + 1)) :
    softmax x i = Real.exp (x i) / ∑ j, Real.exp (x j) := by
  unfold softmax
  have hE : Real.exp (vecMax x) ≠ 0 := Real.exp_ne_zero _
  have hnum : ∀ j, Real.exp (x j - vecMax x) =
      Real.exp (x j) / Real.exp (vecMax x) := fun j => Real.exp_sub _ _
  rw [hnum i]
  rw [Finset.sum_congr rfl fun j _ => hnum j, ← Finset.sum_div]
  rw [div_div_div_cancel_right₀ hE]

/-- C3 (confirmed): every entry of `softmax x` equals
`exp(x i − max x) / Σⱼ exp(x j − max x)`, the entries sum to `1`, and each
entry lies in `[0, 1]`. -/
theorem C3_softmax_formula {n : ℕ} (x : Fin (n + 1) → ℝ) :
    (∀ i, softmax x i =
        Real.exp (x i - vecMax x) / ∑ j, Real.exp (x j - vecMax x)) ∧
      (∑ i, softmax x i) = 1 ∧
      (∀ i, 0 ≤ softmax x i ∧ softmax x i ≤ 1) := by
  have hpos : 0 < ∑ j, Real.exp (x j - vecMax x) :=
    sum_exp_pos fun j => x j - vecMax x
  refine ⟨fun i => rfl, ?_, fun i => ⟨?_, ?_⟩⟩
  · unfold softmax
    rw [← Finset.sum_div, div_self (ne_of_gt hpos)]
  · exact div_nonneg (Real.exp_nonneg _) (le_of_lt hpos)
  · unfold softmax
    rw [div_le_one hpos]
    exact Finset.single_le_sum
      (fun j _ => Real.exp_nonneg (x j - vecMax x)) (Finset.mem_univ i)

/-- C7 (confirmed): softmax is invariant under adding the same constant
to every entry. -/
theorem C7_softmax_shift_invariant {n : ℕ} (x : Fin (n + 1) → ℝ) (c : ℝ) :
    softmax (fun i => x i + c) = softmax x := by
  funext i
  rw [softmax_apply, softmax_apply]
  have hc : Real.exp c ≠ 0 := Real.exp_ne_zero c
  have hnum : ∀ j, Real.exp (x j + c) = Real.exp (x j) * Real.exp c :=
    fun j => Real.exp_add _ _
  rw [hnum i, Finset.sum_congr rfl fun j _ => hnum j, ← Finset.sum_mul]
  rw [mul_div_mul_right _ _ hc]

/-- C5 (confirmed): `scale_rows A b` is `diag(b) · A`; in particular
`A = [[1,2],[3,4]]`, `b = [1,2]` gives `[[1,2],[6,8]]`. -/
theorem C5_scale_rows {m n : ℕ} (A : Matrix (Fin m) (Fin n) ℝ)
    (b : Fin m → ℝ) :
    scale_rows A b = Matrix.diagonal b * A ∧
      scale_rows !![(1 : ℝ), 2; 3, 4] ![1, 2] = !![1, 2; 6, 8] := by
  constructor
  · ext i j
    rw [Matrix.diagonal_mul]
    exact mul_comm _ _
  · ext i j
    fin_cases i <;> fin_cases j <;>
      simp [scale_rows] <;> norm_num

/-- C6 (confirmed): `crossprod X` is `Xᵀ · X` and is symmetric. -/
theorem C6_crossprod_symmetric {m n : ℕ} (X : Matrix (Fin m) (Fin n) ℝ) :
    crossprod X = Xᵀ * X ∧ (crossprod X)ᵀ = crossprod X := by
  refine ⟨rfl, ?_⟩
  unfold crossprod
  rw [Matrix.transpose_mul, Matrix.transpose_transpose]

/-- C4 (confirmed): for lower-triangular `L` with positive diagonal,
`ldmvnorm x L = −½·‖L⁻¹x‖₂² − Σᵢ log(√(2π)·Lᵢᵢ)`, where `‖z‖₂²` is the sum
of the squared entries. -/
theorem C4_ldmvnorm_formula {n : ℕ} (x : Fin n → ℝ)
    (L : Matrix (Fin n) (Fin n) ℝ)
    (hlow : ∀ i j : Fin n, i < j → L i j = 0) (hdiag : ∀ i, 0 < L i i) :
    ldmvnorm x L =
      -(1 / 2) * (∑ i, (L⁻¹ *ᵥ x) i ^ 2)
        - ∑ i, Real.log (Real.sqrt (2 * Real.pi) * L i i) := by
  rw [ldmvnorm_eq]
  unfold solve
  ring

/-- Witness for **C4**: at `x = [0,0]` and `L` the 2×2 identity, `ldmvnorm`
gives the standard bivariate normal log-density at the origin, `−log(2π)`. -/
theorem C4_ldmvnorm_witness :
    ldmvnorm ![(0 : ℝ), 0] (1 : Matrix (Fin 2) (Fin 2) ℝ) =
      -Real.log (2 * Real.pi) := by
  have hlow : ∀ i j : Fin 2, i < j → (1 : Matrix (Fin 2) (Fin 2) ℝ) i j = 0 :=
    fun i j hij => Matrix.one_apply_ne (ne_of_lt hij)
  have hdiag : ∀ i : Fin 2, 0 < (1 : Matrix (Fin 2) (Fin 2) ℝ) i i := by
    intro i
    rw [Matrix.one_apply_eq]
    norm_num
  rw [C4_ldmvnorm_formula ![(0 : ℝ), 0] 1 hlow hdiag]
  have hz : ((1 : Matrix (Fin 2) (Fin 2) ℝ)⁻¹ *ᵥ ![(0 : ℝ), 0]) = ![(0 : ℝ), 0] := by
    rw [inv_one, Matrix.one_mulVec]
  rw [hz, Fin.sum_univ_two, Fin.sum_univ_two]
  simp only [Matrix.cons_val_zero, Matrix.cons_val_one, Matrix.head_cons,
    Matrix.one_apply_eq, mul_one]
  rw [Real.log_sqrt (by positivity)]
  ring

/-- C10 (confirmed): `ldmvnorm` uses a general linear solve, not a
triangular one: for any invertible `L` with positive diagonal, the solved
vector `z = solve L x` satisfies `L·z = x`, and the returned value is
`−½·Σᵢ zᵢ² − Σᵢ log(√(2π)·Lᵢᵢ)`. -/
theorem C10_ldmvnorm_general {n : ℕ} (x : Fin n → ℝ)
    (L : Matrix (Fin n) (Fin n) ℝ)
    (hinv : IsUnit L.det) (hdiag : ∀ i, 0 < L i i) :
    L *ᵥ solve L x = x ∧
      ldmvnorm x L =
        -(∑ i, (solve L x) i ^ 2) / 2
          - ∑ i, Real.log (Real.sqrt (2 * Real.pi) * L i i) := by
  refine ⟨?_, ldmvnorm_eq x L⟩
  unfold solve
  rw [Matrix.mulVec_mulVec, Matrix.mul_nonsing_inv L hinv, Matrix.one_mulVec]

/-- Witness for **C10**: the matrix `[[2,1],[1,1]]` is invertible with
positive diagonal but not lower-triangular (its (0,1) entry is `1 ≠ 0`),
and `solve` still produces a solution of the linear system. -/
theorem C10_ldmvnorm_witness :
    IsUnit (!![(2 : ℝ), 1; 1, 1]).det ∧
      (∀ i : Fin 2, 0 < (!![(2 : ℝ), 1; 1, 1]) i i) ∧
      (!![(2 : ℝ), 1; 1, 1]) 0 1 ≠ 0 ∧
      !![(2 : ℝ), 1; 1, 1] *ᵥ solve !![(2 : ℝ), 1; 1, 1] ![3, 5] = ![3, 5] := by
  have hdet : (!![(2 : ℝ), 1; 1, 1]).det = 1 := by
    rw [Matrix.det_fin_two_of]
    norm_num
  have hinv : IsUnit (!![(2 : ℝ), 1; 1, 1]).det := by
    rw [hdet]
    exact isUnit_one
  have hdiag : ∀ i : Fin 2, 0 < (!![(2 : ℝ), 1; 1, 1]) i i := by
    intro i
    fin_cases i <;> norm_num
  refine ⟨hinv, hdiag, by norm_num, ?_⟩
  exact (C10_ldmvnorm_general ![3, 5] !![(2 : ℝ), 1; 1, 1] hinv hdiag).1

/-- C8 (confirmed): for lower-triangular `L` with positive diagonal and
`S = L·Lᵀ`, `ldmvnorm x L` equals the closed-form log-density
`−½·(n·log(2π) + log det S + xᵀS⁻¹x)`. -/
theorem C8_ldmvnorm_roundtrip {n : ℕ} (x : Fin n → ℝ)
    (L : Matrix (Fin n) (Fin n) ℝ)
    (hlow : ∀ i j : Fin n, i < j → L i j = 0) (hdiag : ∀ i, 0 < L i i) :
    ldmvnorm x L =
      -(1 / 2) * ((n : ℝ) * Real.log (2 * Real.pi)
        + Real.log (L * Lᵀ).det + x ⬝ᵥ (L * Lᵀ)⁻¹ *ᵥ x) := by
  have hblock : L.BlockTriangular OrderDual.toDual := by
    intro i j h
    exact hlow i j (by simpa using h)
  have hdetL : L.det = ∏ i, L i i := Matrix.det_of_lowerTriangular L hblock
  have hdpos : 0 < L.det := hdetL ▸ Finset.prod_pos fun i _ => hdiag i
  have hdne : L.det ≠ 0 := ne_of_gt hdpos
  have hlogdet : Real.log (L * Lᵀ).det = 2 * ∑ i, Real.log (L i i) := by
    rw [Matrix.det_mul, Matrix.det_transpose, Real.log_mul hdne hdne, hdetL,
      Real.log_prod _ _ fun i _ => ne_of_gt (hdiag i)]
    ring
  have hquad : x ⬝ᵥ (L * Lᵀ)⁻¹ *ᵥ x = ∑ i, (solve L x) i ^ 2 := by
    rw [Matrix.mul_inv_rev, ← Matrix.transpose_nonsing_inv,
      ← Matrix.mulVec_mulVec, Matrix.dotProduct_mulVec,
      Matrix.vecMul_transpose]
    unfold solve
    simp [Matrix.dotProduct, sq]
  have h2pi : (0 : ℝ) < 2 * Real.pi := by positivity
  have hconst : ∑ i, Real.log (Real.sqrt (2 * Real.pi) * L i i)
      = (n : ℝ) * (Real.log (2 * Real.pi) / 2) + ∑ i, Real.log (L i i) := by
    have hsq : Real.sqrt (2 * Real.pi) ≠ 0 :=
      ne_of_gt (Real.sqrt_pos.mpr h2pi)
    have hterm : ∀ i : Fin n, Real.log (Real.sqrt (2 * Real.pi) * L i i)
        = Real.log (2 * Real.pi) / 2 + Real.log (L i i) := by
      intro i
      rw [Real.log_mul hsq (ne_of_gt (hdiag i)),
        Real.log_sqrt (le_of_lt h2pi)]
    rw [Finset.sum_congr rfl fun i _ => hterm i, Finset.sum_add_distrib,
      Finset.sum_const, Finset.card_univ, Fintype.card_fin, nsmul_eq_mul]
  rw [ldmvnorm_eq, hlogdet, hquad, hconst]
  ring

/-- Witness for **C8**: at `n = 1`, `x = [0]`, `L` the 1×1 identity, the
hypotheses hold and the round-trip identity is obtained from the theorem. -/
theorem C8_ldmvnorm_witness :
    (∀ i j : Fin 1, i < j → (1 : Matrix (Fin 1) (Fin 1) ℝ) i j = 0) ∧
      (∀ i : Fin 1, 0 < (1 : Matrix (Fin 1) (Fin 1) ℝ) i i) ∧
      ldmvnorm ![(0 : ℝ)] (1 : Matrix (Fin 1) (Fin 1) ℝ) =
        -(1 / 2) * (((1 : ℕ) : ℝ) * Real.log (2 * Real.pi)
          + Real.log ((1 : Matrix (Fin 1) (Fin 1) ℝ)
              * (1 : Matrix (Fin 1) (Fin 1) ℝ)ᵀ).det
          + ![(0 : ℝ)] ⬝ᵥ ((1 : Matrix (Fin 1) (Fin 1) ℝ)
              * (1 : Matrix (Fin 1) (Fin 1) ℝ)ᵀ)⁻¹ *ᵥ ![(0 : ℝ)]) := by
  have hlow : ∀ i j : Fin 1, i < j → (1 : Matrix (Fin 1) (Fin 1) ℝ) i j = 0 := by
    intro i j hij
    have hij' : i = j := Subsingleton.elim i j
    subst hij'
    exact absurd hij (lt_irrefl i)
  have hdiag : ∀ i : Fin 1, 0 < (1 : Matrix (Fin 1) (Fin 1) ℝ) i i := by
    intro i
    rw [Matrix.one_apply_eq]
    norm_num
  exact ⟨hlow, hdiag, C8_ldmvnorm_roundtrip ![(0 : ℝ)] 1 hlow hdiag⟩

end Misc
